import Mathlib

/-!
A verification development for the wafer guest-side runtime adapter:
the pointer/length packing of the memory bridge (context.rs), the wire
codec (types.rs: base64 payload encoding, metadata pair folding,
action-tag and lifecycle-type decoding, the wire conversion functions),
and the dispatch entry points generated by the register macro (lib.rs).

Machine integers are modelled as natural-number bit patterns: an `i32`
is a `Nat` below `2 ^ 32`, an `i64` a `Nat` below `2 ^ 64`, with sign
extension and arithmetic shift made explicit, and reduction modulo
powers of two written out wherever the Rust code can wrap.
Byte buffers are `List Nat` (each element below 256), strings that the
code iterates over character by character are `List Char`.
-/

namespace WaferGuest

/-- Sign extension of a 32-bit pattern to a 64-bit pattern: the Rust
cast `x as i64` applied to an `i32` whose bit pattern is `x`. -/
def sext32 (x : Nat) : Nat :=
  if x < 2 ^ 31 then x else x + (2 ^ 64 - 2 ^ 32)

/-- `pack_ptr_len` from context.rs:
`((ptr as i64) << 32) | ((len as i64) & 0xFFFF_FFFF)`, computed on
64-bit two's-complement bit patterns (the left shift wraps mod 2^64). -/
def pack_ptr_len (ptr len : Nat) : Nat :=
  ((sext32 ptr <<< 32) % 2 ^ 64) ||| (sext32 len &&& 0xFFFFFFFF)

/-- Arithmetic right shift by 32 of a 64-bit two's-complement pattern:
the Rust `packed >> 32` on `i64`. -/
def i64_ashr32 (x : Nat) : Nat :=
  if x < 2 ^ 63 then x >>> 32 else (x >>> 32) + (2 ^ 64 - 2 ^ 32)

/-- `unpack_ptr_len` from context.rs:
`((packed >> 32) as i32, (packed & 0xFFFF_FFFF) as i32)`; the casts to
`i32` keep the low 32 bits of the pattern. -/
def unpack_ptr_len (packed : Nat) : Nat × Nat :=
  (i64_ashr32 packed % 2 ^ 32, (packed &&& 0xFFFFFFFF) % 2 ^ 32)

theorem lor_eq_add_of_mod (a b k : Nat) (ha : a % 2 ^ k = 0) (hb : b < 2 ^ k) :
    a ||| b = a + b := by
  obtain ⟨q, hq⟩ := Nat.dvd_of_mod_eq_zero ha
  subst hq
  exact (Nat.mul_add_lt_is_or hb q).symm

theorem pack_ptr_len_eq (p l : Nat) (hp : p < 2 ^ 32) (hl : l < 2 ^ 32) :
    pack_ptr_len p l = p * 2 ^ 32 + l := by
  have hmask : (0xFFFFFFFF : Nat) = 2 ^ 32 - 1 := by norm_num
  have hlow : sext32 l &&& 0xFFFFFFFF = l := by
    rw [hmask, Nat.and_pow_two_sub_one_eq_mod]
    unfold sext32
    split <;> omega
  have hhigh : (sext32 p <<< 32) % 2 ^ 64 = p * 2 ^ 32 := by
    rw [Nat.shiftLeft_eq]
    unfold sext32
    split <;> omega
  unfold pack_ptr_len
  rw [hlow, hhigh]
  exact lor_eq_add_of_mod _ _ 32 (Nat.mul_mod_left p (2 ^ 32)) hl

/-- Claim C1: for every 32-bit pointer pattern and 32-bit length pattern,
unpacking the packed 64-bit word recovers the pair bit-identically, the
pointer sits in the high 32 bits of the packed word and the length in
the low 32 bits, for the full range including 0 and the maxima, despite
the signed container type. -/
theorem pack_unpack_roundtrip (p l : Nat) (hp : p < 2 ^ 32) (hl : l < 2 ^ 32) :
    unpack_ptr_len (pack_ptr_len p l) = (p, l) ∧
    pack_ptr_len p l >>> 32 = p ∧ pack_ptr_len p l % 2 ^ 32 = l := by
  rw [pack_ptr_len_eq p l hp hl]
  have hmask : (0xFFFFFFFF : Nat) = 2 ^ 32 - 1 := by norm_num
  refine ⟨?_, ?_, ?_⟩
  · unfold unpack_ptr_len i64_ashr32
    rw [hmask, Nat.and_pow_two_sub_one_eq_mod, Nat.shiftRight_eq_div_pow]
    split <;> (simp only [Prod.mk.injEq]; omega)
  · rw [Nat.shiftRight_eq_div_pow]
    omega
  · omega

/-- Witness for C1 at the spec's own scenario: packing pointer
0xDEADBEEF (which exercises the sign-extension case) with length 16
unpacks to the same pair. -/
theorem pack_unpack_roundtrip_witness :
    0xDEADBEEF < 2 ^ 32 ∧ 16 < 2 ^ 32 ∧
    unpack_ptr_len (pack_ptr_len 0xDEADBEEF 16) = (0xDEADBEEF, 16) :=
  ⟨by norm_num, by norm_num,
    (pack_unpack_roundtrip 0xDEADBEEF 16 (by norm_num) (by norm_num)).1⟩

/-! ## Data model (types.rs)

`HashMap<String, String>` is modelled as an association list whose key
uniqueness is maintained by `mapInsert`, the embedding of
`HashMap::insert`: it replaces the value of an existing key in place
and otherwise appends the new entry. -/

/-- Lookup in the association-list model of `HashMap<String, String>`. -/
def mapGet : List (String × String) → String → Option String
  | [], _ => none
  | p :: rest, k => if p.1 = k then some p.2 else mapGet rest k

/-- The embedding of `HashMap::insert`. -/
def mapInsert : List (String × String) → String → String → List (String × String)
  | [], k, v => [(k, v)]
  | p :: rest, k, v => if p.1 = k then (k, v) :: rest else p :: mapInsert rest k v

/-- The in-memory `Message` of types.rs. -/
structure Message where
  kind : String
  data : List Nat
  meta : List (String × String)
  deriving DecidableEq

/-- The in-memory `Response` of types.rs. -/
structure Response where
  data : List Nat
  meta : List (String × String)
  deriving DecidableEq

/-- The in-memory structured error `WaferError` of types.rs. -/
structure WaferError where
  code : String
  message : String
  meta : List (String × String)
  deriving DecidableEq

/-- The four-way action tag `Action` of types.rs. -/
inductive Action where
  | Continue
  | Respond
  | Drop
  | Error
  deriving DecidableEq

/-- `Action::as_str` from types.rs. -/
def Action.as_str : Action → String
  | .Continue => "continue"
  | .Respond => "respond"
  | .Drop => "drop"
  | .Error => "error"

/-- The in-memory outcome `Result_` of types.rs. -/
structure Result_ where
  action : Action
  response : Option Response
  error : Option WaferError
  message : Option Message
  deriving DecidableEq

/-- The lifecycle event type of types.rs. -/
inductive LifecycleType where
  | Init
  | Start
  | Stop
  deriving DecidableEq

/-- `LifecycleType::parse` from types.rs. -/
def LifecycleType.parse (s : String) : Option LifecycleType :=
  if s = "init" then some .Init
  else if s = "start" then some .Start
  else if s = "stop" then some .Stop
  else none

/-- The in-memory `LifecycleEvent` of types.rs. -/
structure LifecycleEvent where
  event_type : LifecycleType
  data : List Nat
  deriving DecidableEq

/-! ## Wire-format types (types.rs, JSON layer)

The wire `meta` field is a sequence of `[key, value]` pairs; a pair is
modelled as `String × String`. -/

/-- Wire-format `WasmMessage`. -/
structure WasmMessage where
  kind : String
  data : List Nat
  meta : List (String × String)
  deriving DecidableEq

/-- Wire-format `WasmResponse`. -/
structure WasmResponse where
  data : List Nat
  meta : List (String × String)
  deriving DecidableEq

/-- Wire-format `WasmError`. -/
structure WasmError where
  code : String
  message : String
  meta : List (String × String)
  deriving DecidableEq

/-- Wire-format `WasmResult`. -/
structure WasmResult where
  action : String
  response : Option WasmResponse
  error : Option WasmError
  deriving DecidableEq

/-- Wire-format `WasmLifecycleEvent`. -/
structure WasmLifecycleEvent where
  event_type : String
  data : List Nat
  deriving DecidableEq

/-! ## Conversion helpers (types.rs) -/

/-- The decode-side fold of wire metadata pairs into the key-unique
mapping: the `for pair in wm.meta { meta.insert(...) }` loops of
`Message::from_wasm` and `Result_::from_wasm`. -/
def metaFromPairs (ps : List (String × String)) : List (String × String) :=
  ps.foldl (fun m p => mapInsert m p.1 p.2) []

/-- `Message::from_wasm` from types.rs. -/
def Message.from_wasm (wm : WasmMessage) : Message :=
  { kind := wm.kind, data := wm.data, meta := metaFromPairs wm.meta }

/-- `Message::to_wasm` from types.rs: the map iteration emits the
entries of the mapping as wire pairs. -/
def Message.to_wasm (m : Message) : WasmMessage :=
  { kind := m.kind, data := m.data, meta := m.meta }

/-- `Message::get_meta` from types.rs. -/
def Message.get_meta (m : Message) (k : String) : String :=
  (mapGet m.meta k).getD ""

/-- `Result_::to_wasm` from types.rs: the action tag is stringified and
each optional field is mapped across unconditionally. -/
def Result_.to_wasm (r : Result_) : WasmResult :=
  { action := r.action.as_str,
    response := r.response.map fun rs => { data := rs.data, meta := rs.meta },
    error := r.error.map fun e =>
      { code := e.code, message := e.message, meta := e.meta } }

/-- The `match wr.action.as_str()` of `Result_::from_wasm`, with the
catch-all arm mapping any unknown tag to `Continue`. -/
def parseActionTag (s : String) : Action :=
  if s = "continue" then .Continue
  else if s = "respond" then .Respond
  else if s = "drop" then .Drop
  else if s = "error" then .Error
  else .Continue

/-- `Result_::from_wasm` from types.rs. -/
def Result_.from_wasm (wr : WasmResult) : Result_ :=
  { action := parseActionTag wr.action,
    response := wr.response.map fun r =>
      { data := r.data, meta := metaFromPairs r.meta },
    error := wr.error.map fun e =>
      { code := e.code, message := e.message, meta := metaFromPairs e.meta },
    message := none }

/-- `LifecycleEvent::from_wasm` from types.rs. -/
def LifecycleEvent.from_wasm (w : WasmLifecycleEvent) : Option LifecycleEvent :=
  (LifecycleType.parse w.event_type).map fun t =>
    { event_type := t, data := w.data }

/-! ## Claims C3, C5, C6, C10 -/

/-- A `Result_` with conflicting fields: action `Respond` but both the
response and the error populated. -/
def conflictingResult : Result_ :=
  { action := .Respond,
    response := some { data := [], meta := [] },
    error := some { code := "boom", message := "m", meta := [] },
    message := none }

/-- Counterexample to claim C3: encoding a `Result_` whose action is
`Respond` while both `response` and `error` are populated yields a wire
record in which both fields are still present — the encoder does not
discard the field that conflicts with the action tag. -/
theorem to_wasm_keeps_conflicting_error :
    (Result_.to_wasm conflictingResult).action = "respond" ∧
    (Result_.to_wasm conflictingResult).response.isSome = true ∧
    (Result_.to_wasm conflictingResult).error.isSome = true := by
  simp [Result_.to_wasm, conflictingResult, Action.as_str]

/-- Claim C3 (amended): the encoder stringifies the action tag and
passes each optional field through unchanged, regardless of the action
tag — it performs no tie-breaking, so conflicting fields both reach the
wire record. -/
theorem to_wasm_field_passthrough (r : Result_) :
    (Result_.to_wasm r).action = r.action.as_str ∧
    (Result_.to_wasm r).response.isSome = r.response.isSome ∧
    (Result_.to_wasm r).error.isSome = r.error.isSome := by
  refine ⟨rfl, ?_, ?_⟩ <;> cases hr : r.response <;> cases he : r.error <;>
    simp [Result_.to_wasm, hr, he]

/-- A wire outcome violating the outcome invariant: action `respond`
with no response field present. -/
def respondNoResponse : WasmResult :=
  { action := "respond", response := none, error := none }

/-- Counterexample to claim C5: decoding a wire outcome with action
`respond` and no response yields a `Respond` outcome with no response
and no error — not an `Error` outcome carrying a decode-time error
code. -/
theorem from_wasm_accepts_missing_response :
    (Result_.from_wasm respondNoResponse).action = Action.Respond ∧
    (Result_.from_wasm respondNoResponse).response = none ∧
    (Result_.from_wasm respondNoResponse).error = none := by
  simp [Result_.from_wasm, respondNoResponse, parseActionTag]

/-- Claim C5 (amended): `Result_::from_wasm` performs no validation of
the outcome invariant: it decodes the action tag and copies the
presence of each optional field as-is, so an invariant-violating wire
outcome decodes to an outcome of the same shape rather than to an
`Error` outcome. -/
theorem from_wasm_no_validation (w : WasmResult) :
    (Result_.from_wasm w).action = parseActionTag w.action ∧
    (Result_.from_wasm w).response.isSome = w.response.isSome ∧
    (Result_.from_wasm w).error.isSome = w.error.isSome := by
  refine ⟨rfl, ?_, ?_⟩ <;> cases hr : w.response <;> cases he : w.error <;>
    simp [Result_.from_wasm, hr, he]

/-- Claim C6: a wire outcome whose action token is none of the four
exact lowercase tokens decodes to a `Continue` action rather than
failing. -/
theorem unknown_action_decodes_continue (s : String) (r : Option WasmResponse)
    (e : Option WasmError) (h1 : s ≠ "continue") (h2 : s ≠ "respond")
    (h3 : s ≠ "drop") (h4 : s ≠ "error") :
    (Result_.from_wasm { action := s, response := r, error := e }).action =
      Action.Continue := by
  simp [Result_.from_wasm, parseActionTag, h1, h2, h3, h4]

/-- Witness for C6 at the concrete unknown token "halt". -/
theorem unknown_action_decodes_continue_witness :
    (Result_.from_wasm { action := "halt", response := none, error := none }).action =
      Action.Continue :=
  unknown_action_decodes_continue "halt" none none (by decide) (by decide)
    (by decide) (by decide)

/-- Claim C10: `Message::get_meta` is total — it returns the stored
value when the key is present and the empty string when it is absent. -/
theorem get_meta_total (m : Message) (k : String) :
    (∀ v, mapGet m.meta k = some v → m.get_meta k = v) ∧
    (mapGet m.meta k = none → m.get_meta k = "") := by
  constructor <;> intro h <;> simp_all [Message.get_meta]

/-- Witness for C10: a present key returns its value, an absent key the
empty string. -/
theorem get_meta_total_witness :
    Message.get_meta { kind := "k", data := [], meta := [("a", "1")] } "a" = "1" ∧
    Message.get_meta { kind := "k", data := [], meta := [("a", "1")] } "z" = "" :=
  ⟨(get_meta_total { kind := "k", data := [], meta := [("a", "1")] } "a").1 "1"
      (by decide),
    (get_meta_total { kind := "k", data := [], meta := [("a", "1")] } "z").2
      (by decide)⟩

/-! ## Claim C7: metadata pair folding -/

/-- The spec-side description of duplicate resolution: the value of the
last wire pair carrying the key, if any. -/
def lastPairValue (ps : List (String × String)) (k : String) : Option String :=
  (ps.reverse.find? fun p => p.1 == k).map fun p => p.2

theorem lastPairValue_nil (k : String) : lastPairValue [] k = none := rfl

theorem lastPairValue_cons (p : String × String) (rest : List (String × String))
    (k : String) :
    lastPairValue (p :: rest) k =
      (lastPairValue rest k).or (if p.1 = k then some p.2 else none) := by
  unfold lastPairValue
  rw [List.reverse_cons, List.find?_append]
  by_cases hp : p.1 = k
  · have hb : (p.1 == k) = true := beq_iff_eq.mpr hp
    cases hf : List.find? (fun q => q.1 == k) rest.reverse <;>
      simp [List.find?, hb, hp]
  · have hb : (p.1 == k) = false := beq_eq_false_iff_ne.mpr hp
    cases hf : List.find? (fun q => q.1 == k) rest.reverse <;>
      simp [List.find?, hb, hp]

theorem mapGet_mapInsert (m : List (String × String)) (k v k' : String) :
    mapGet (mapInsert m k v) k' = if k = k' then some v else mapGet m k' := by
  induction m with
  | nil => simp [mapInsert, mapGet]
  | cons p rest ih =>
    simp only [mapInsert]
    by_cases hp : p.1 = k
    · rw [if_pos hp]
      by_cases hk : k = k'
      · simp [mapGet, hk]
      · have hpk : ¬ p.1 = k' := by rw [hp]; exact hk
        simp [mapGet, hk, hpk]
    · rw [if_neg hp]
      by_cases hpk : p.1 = k'
      · have hk : ¬ k = k' := fun he => hp (hpk.trans he.symm)
        simp [mapGet, hpk, hk]
      · simp [mapGet, hpk, ih]

theorem foldl_insert_get (ps : List (String × String))
    (acc : List (String × String)) (k : String) :
    mapGet (ps.foldl (fun m p => mapInsert m p.1 p.2) acc) k =
      (lastPairValue ps k).or (mapGet acc k) := by
  induction ps generalizing acc with
  | nil => simp [lastPairValue]
  | cons p rest ih =>
    rw [List.foldl_cons, ih, lastPairValue_cons, mapGet_mapInsert]
    cases lastPairValue rest k <;> by_cases hc : p.1 = k <;> simp [hc]

/-- On decode, the fold of wire pairs resolves a duplicate key to the
value of the last pair carrying it. -/
theorem metaFromPairs_get (ps : List (String × String)) (k : String) :
    mapGet (metaFromPairs ps) k = lastPairValue ps k := by
  unfold metaFromPairs
  rw [foldl_insert_get]
  cases lastPairValue ps k <;> simp [mapGet]

theorem mem_keys_mapInsert (m : List (String × String)) (k v a : String)
    (h : a ∈ (mapInsert m k v).map Prod.fst) :
    a = k ∨ a ∈ m.map Prod.fst := by
  induction m with
  | nil =>
    simp only [mapInsert, List.map_cons, List.map_nil, List.mem_singleton] at h
    exact Or.inl h
  | cons p rest ih =>
    simp only [mapInsert] at h
    by_cases hp : p.1 = k
    · rw [if_pos hp, List.map_cons, List.mem_cons] at h
      rcases h with h | h
      · exact Or.inl h
      · exact Or.inr (by rw [List.map_cons, List.mem_cons]; exact Or.inr h)
    · rw [if_neg hp, List.map_cons, List.mem_cons] at h
      rcases h with h | h
      · exact Or.inr (by rw [List.map_cons, List.mem_cons]; exact Or.inl h)
      · rcases ih h with h2 | h2
        · exact Or.inl h2
        · exact Or.inr (by rw [List.map_cons, List.mem_cons]; exact Or.inr h2)

theorem mapInsert_nodup_keys (m : List (String × String)) (k v : String)
    (h : (m.map Prod.fst).Nodup) : ((mapInsert m k v).map Prod.fst).Nodup := by
  induction m with
  | nil => simp [mapInsert]
  | cons p rest ih =>
    simp only [List.map_cons, List.nodup_cons] at h
    simp only [mapInsert]
    by_cases hp : p.1 = k
    · rw [if_pos hp]
      simp only [List.map_cons, List.nodup_cons]
      exact ⟨hp ▸ h.1, h.2⟩
    · rw [if_neg hp]
      simp only [List.map_cons, List.nodup_cons]
      refine ⟨fun hmem => ?_, ih h.2⟩
      rcases mem_keys_mapInsert rest k v p.1 hmem with h2 | h2
      · exact hp h2
      · exact h.1 h2

/-- The decode-side fold always produces a key-unique mapping. -/
theorem metaFromPairs_nodup (ps : List (String × String)) :
    ((metaFromPairs ps).map Prod.fst).Nodup := by
  unfold metaFromPairs
  suffices h : ∀ acc : List (String × String), (acc.map Prod.fst).Nodup →
      ((ps.foldl (fun m p => mapInsert m p.1 p.2) acc).map Prod.fst).Nodup by
    exact h [] (by simp)
  induction ps with
  | nil => intro acc hacc; simpa using hacc
  | cons p rest ih =>
    intro acc hacc
    exact ih (mapInsert acc p.1 p.2) (mapInsert_nodup_keys acc p.1 p.2 hacc)

theorem mapInsert_of_not_mem (m : List (String × String)) (k v : String)
    (h : k ∉ m.map Prod.fst) : mapInsert m k v = m ++ [(k, v)] := by
  induction m with
  | nil => rfl
  | cons p rest ih =>
    rw [List.map_cons, List.mem_cons] at h
    push_neg at h
    have hp : ¬ p.1 = k := fun he => h.1 he.symm
    simp only [mapInsert]
    rw [if_neg hp, List.cons_append, ih h.2]

theorem foldl_insert_of_nodup (ps : List (String × String)) :
    ∀ acc : List (String × String), (ps.map Prod.fst).Nodup →
      (∀ p ∈ ps, p.1 ∉ acc.map Prod.fst) →
      ps.foldl (fun m p => mapInsert m p.1 p.2) acc = acc ++ ps := by
  induction ps with
  | nil => intro acc _ _; simp
  | cons p rest ih =>
    intro acc hnd hdisj
    simp only [List.map_cons, List.nodup_cons] at hnd
    rw [List.foldl_cons,
      mapInsert_of_not_mem acc p.1 p.2 (hdisj p (by simp))]
    rw [ih (acc ++ [(p.1, p.2)]) hnd.2 ?_]
    · simp
    · intro q hq
      simp only [List.map_append, List.mem_append, List.map_cons,
        List.map_nil, List.mem_singleton]
      push_neg
      refine ⟨hdisj q (by simp [hq]), fun he => ?_⟩
      exact hnd.1 (he ▸ List.mem_map_of_mem Prod.fst hq)

/-- Encoding a key-unique mapping and folding it back reproduces the
mapping exactly. -/
theorem metaFromPairs_of_nodup (ps : List (String × String))
    (h : (ps.map Prod.fst).Nodup) : metaFromPairs ps = ps := by
  unfold metaFromPairs
  rw [foldl_insert_of_nodup ps [] h (by simp)]
  simp

/-- Claim C7: decoding folds wire metadata pairs into a key-unique
mapping in which a later pair with a duplicate key overwrites the
earlier value, and encoding a key-unique metadata mapping then decoding
it yields the same mapping. -/
theorem meta_fold_and_roundtrip :
    (∀ (ps : List (String × String)) (k : String),
        mapGet (metaFromPairs ps) k = lastPairValue ps k ∧
        ((metaFromPairs ps).map Prod.fst).Nodup) ∧
    (∀ m : Message, (m.meta.map Prod.fst).Nodup →
        Message.from_wasm (Message.to_wasm m) = m) := by
  refine ⟨fun ps k => ⟨metaFromPairs_get ps k, metaFromPairs_nodup ps⟩,
    fun m hm => ?_⟩
  unfold Message.from_wasm Message.to_wasm
  rw [metaFromPairs_of_nodup m.meta hm]

/-- Witness for C7: a duplicate key resolves to the last-written value,
and a concrete key-unique message round-trips unchanged. -/
theorem meta_fold_and_roundtrip_witness :
    mapGet (metaFromPairs [("a", "1"), ("a", "2")]) "a" =
      lastPairValue [("a", "1"), ("a", "2")] "a" ∧
    lastPairValue [("a", "1"), ("a", "2")] "a" = some "2" ∧
    Message.from_wasm
        (Message.to_wasm { kind := "ping", data := [], meta := [("a", "x")] }) =
      { kind := "ping", data := [], meta := [("a", "x")] } :=
  ⟨(meta_fold_and_roundtrip.1 [("a", "1"), ("a", "2")] "a").1, by decide,
    meta_fold_and_roundtrip.2 { kind := "ping", data := [], meta := [("a", "x")] }
      (by decide)⟩

/-! ## Base64 codec (types.rs, module base64_serde) -/

/-- The alphabet `CHARS` of base64_serde. -/
def b64CHARS : List Char :=
  "ABCDEFGHIJKLMNOPQRSTUVWXYZabcdefghijklmnopqrstuvwxyz0123456789+/".toList

/-- `base64_encode` from types.rs, written over the `chunks(3)`
structure of its loop; `CHARS[i]` is `b64CHARS.getD i 'A'` (the index
is always in range thanks to the `& 0x3F` mask). -/
def base64_encode : List Nat → List Char
  | [] => []
  | [b0] =>
    let triple := b0 <<< 16
    [b64CHARS.getD ((triple >>> 18) &&& 0x3F) 'A',
     b64CHARS.getD ((triple >>> 12) &&& 0x3F) 'A', '=', '=']
  | [b0, b1] =>
    let triple := (b0 <<< 16) ||| (b1 <<< 8)
    [b64CHARS.getD ((triple >>> 18) &&& 0x3F) 'A',
     b64CHARS.getD ((triple >>> 12) &&& 0x3F) 'A',
     b64CHARS.getD ((triple >>> 6) &&& 0x3F) 'A', '=']
  | b0 :: b1 :: b2 :: rest =>
    let triple := (b0 <<< 16) ||| (b1 <<< 8) ||| b2
    b64CHARS.getD ((triple >>> 18) &&& 0x3F) 'A' ::
      b64CHARS.getD ((triple >>> 12) &&& 0x3F) 'A' ::
      b64CHARS.getD ((triple >>> 6) &&& 0x3F) 'A' ::
      b64CHARS.getD (triple &&& 0x3F) 'A' :: base64_encode rest

/-- The `match c` of `base64_decode`, mapping a character to its 6-bit
value or a decode error. -/
def b64val (c : Char) : Except String Nat :=
  if 'A' ≤ c ∧ c ≤ 'Z' then .ok (c.toNat - 'A'.toNat)
  else if 'a' ≤ c ∧ c ≤ 'z' then .ok (c.toNat - 'a'.toNat + 26)
  else if '0' ≤ c ∧ c ≤ '9' then .ok (c.toNat - '0'.toNat + 52)
  else if c = '+' then .ok 62
  else if c = '/' then .ok 63
  else .error ("invalid base64 character: " ++ c.toString)

/-- `input.trim_end_matches('=')` on the character sequence. -/
def trimPad (s : List Char) : List Char :=
  (s.reverse.dropWhile fun c => c = '=').reverse

/-- The accumulation loop of `base64_decode`: `buf` is a `u32` (the
shift wraps modulo 2^32), six bits enter per character, and a byte is
emitted whenever at least eight bits are pending. -/
def decodeLoop : List Char → Nat → Nat → Except String (List Nat)
  | [], _, _ => .ok []
  | c :: cs, buf, bits =>
    match b64val c with
    | .error e => .error e
    | .ok val =>
      let buf2 := ((buf <<< 6) % 2 ^ 32) ||| val
      let bits2 := bits + 6
      if 8 ≤ bits2 then
        match decodeLoop cs buf2 (bits2 - 8) with
        | .error e => .error e
        | .ok rest => .ok (((buf2 >>> (bits2 - 8)) &&& 0xFF) :: rest)
      else
        decodeLoop cs buf2 bits2

/-- `base64_decode` from types.rs. -/
def base64_decode (s : List Char) : Except String (List Nat) :=
  decodeLoop (trimPad s) 0 0

theorem and63_eq_mod (x : Nat) : x &&& 0x3F = x % 64 := by
  have h : (0x3F : Nat) = 2 ^ 6 - 1 := by norm_num
  rw [h, Nat.and_pow_two_sub_one_eq_mod]

theorem and255_eq_mod (x : Nat) : x &&& 0xFF = x % 256 := by
  have h : (0xFF : Nat) = 2 ^ 8 - 1 := by norm_num
  rw [h, Nat.and_pow_two_sub_one_eq_mod]

theorem and63_lt (x : Nat) : x &&& 0x3F < 64 := by
  rw [and63_eq_mod]
  exact Nat.mod_lt _ (by norm_num)

theorem except_eq_ok_of_toOption {e : Except String Nat} {v : Nat}
    (h : e.toOption = some v) : e = .ok v := by
  cases e with
  | error a => simp [Except.toOption] at h
  | ok a => simp [Except.toOption] at h; rw [h]

/-- Decoding inverts the alphabet table on all 64 values. -/
theorem b64val_getD (v : Nat) (hv : v < 64) :
    b64val (b64CHARS.getD v 'A') = .ok v := by
  apply except_eq_ok_of_toOption
  revert hv
  revert v
  decide

/-- No alphabet character is the padding character. -/
theorem b64CHARS_getD_ne_pad (v : Nat) (hv : v < 64) :
    b64CHARS.getD v 'A' ≠ '=' := by
  revert hv
  revert v
  decide

theorem dropWhile_no_pad (l : List Char) (h : ∀ c ∈ l, ¬ c = '=') :
    (l.dropWhile fun c => c = '=') = l := by
  cases l with
  | nil => rfl
  | cons c cs =>
    rw [List.dropWhile_cons, if_neg (by simpa using h c (by simp))]

theorem trimPad_append_of_ne (xs ys : List Char) (h : ∀ c ∈ xs, ¬ c = '=') :
    trimPad (xs ++ ys) = xs ++ trimPad ys := by
  unfold trimPad
  rw [List.reverse_append, List.dropWhile_append]
  cases hys : ys.reverse.dropWhile (fun c => c = '=') with
  | nil =>
    simp only [List.isEmpty_nil, if_true]
    rw [dropWhile_no_pad xs.reverse (fun c hc => h c (List.mem_reverse.mp hc)),
      List.reverse_reverse]
    simp
  | cons a as =>
    simp only [List.isEmpty_cons, Bool.false_eq_true, if_false]
    simp [List.reverse_append, List.append_assoc]

theorem trimPad_double_pad : trimPad ['=', '='] = [] := by decide

theorem trimPad_single_pad : trimPad ['='] = [] := by decide

/-- Processing one valid character of the decode loop, with the bit
operations rewritten to plain arithmetic. -/
theorem decode_step (c : Char) (cs : List Char) (v buf bits : Nat)
    (hc : b64val c = .ok v) (hv : v < 64) :
    decodeLoop (c :: cs) buf bits =
      if 8 ≤ bits + 6 then
        match decodeLoop cs (buf * 64 % 2 ^ 32 + v) (bits + 6 - 8) with
        | .error e => .error e
        | .ok rest =>
          .ok ((buf * 64 % 2 ^ 32 + v) / 2 ^ (bits + 6 - 8) % 256 :: rest)
      else decodeLoop cs (buf * 64 % 2 ^ 32 + v) (bits + 6) := by
  have hsh : buf <<< 6 = buf * 64 := by
    rw [Nat.shiftLeft_eq]
  have hor : (buf <<< 6) % 2 ^ 32 ||| v = buf * 64 % 2 ^ 32 + v := by
    rw [hsh]
    exact lor_eq_add_of_mod (buf * 64 % 2 ^ 32) v 6 (by omega) (by omega)
  simp only [decodeLoop, hc, hor, Nat.shiftRight_eq_div_pow, and255_eq_mod]

theorem encode_cons3 (b0 b1 b2 : Nat) (rest : List Nat) :
    base64_encode (b0 :: b1 :: b2 :: rest) =
      [b64CHARS.getD ((((b0 <<< 16) ||| (b1 <<< 8) ||| b2) >>> 18) &&& 0x3F) 'A',
       b64CHARS.getD ((((b0 <<< 16) ||| (b1 <<< 8) ||| b2) >>> 12) &&& 0x3F) 'A',
       b64CHARS.getD ((((b0 <<< 16) ||| (b1 <<< 8) ||| b2) >>> 6) &&& 0x3F) 'A',
       b64CHARS.getD (((b0 <<< 16) ||| (b1 <<< 8) ||| b2) &&& 0x3F) 'A'] ++
      base64_encode rest := rfl

theorem encode_cons1 (b0 : Nat) :
    base64_encode [b0] =
      [b64CHARS.getD (((b0 <<< 16) >>> 18) &&& 0x3F) 'A',
       b64CHARS.getD (((b0 <<< 16) >>> 12) &&& 0x3F) 'A'] ++ ['=', '='] := rfl

theorem encode_cons2 (b0 b1 : Nat) :
    base64_encode [b0, b1] =
      [b64CHARS.getD ((((b0 <<< 16) ||| (b1 <<< 8)) >>> 18) &&& 0x3F) 'A',
       b64CHARS.getD ((((b0 <<< 16) ||| (b1 <<< 8)) >>> 12) &&& 0x3F) 'A',
       b64CHARS.getD ((((b0 <<< 16) ||| (b1 <<< 8)) >>> 6) &&& 0x3F) 'A'] ++
      ['='] := rfl

theorem decode_encode_aux :
    ∀ (l : List Nat) (buf : Nat), (∀ b ∈ l, b < 256) →
      decodeLoop (trimPad (base64_encode l)) buf 0 = .ok l
  | [], _, _ => rfl
  | [b0], buf, h => by
    have hb0 : b0 < 256 := h b0 (by simp)
    have ht : b0 <<< 16 = b0 * 65536 := by
      rw [Nat.shiftLeft_eq]
    rw [encode_cons1,
      trimPad_append_of_ne _ _ (by
        intro c hc
        simp only [List.mem_cons, List.not_mem_nil, or_false] at hc
        rcases hc with rfl | rfl <;> exact b64CHARS_getD_ne_pad _ (and63_lt _)),
      trimPad_double_pad, List.append_nil]
    rw [decode_step _ _ _ _ _ (b64val_getD _ (and63_lt _)) (and63_lt _),
      if_neg (by norm_num),
      decode_step _ _ _ _ _ (b64val_getD _ (and63_lt _)) (and63_lt _),
      if_pos (by norm_num)]
    simp only [decodeLoop, ht, Nat.shiftRight_eq_div_pow, and63_eq_mod,
      Except.ok.injEq, List.cons.injEq, and_true]
    omega
  | [b0, b1], buf, h => by
    have hb0 : b0 < 256 := h b0 (by simp)
    have hb1 : b1 < 256 := h b1 (by simp)
    have e0 : b0 <<< 16 = b0 * 65536 := by
      rw [Nat.shiftLeft_eq]
    have e1 : b1 <<< 8 = b1 * 256 := by
      rw [Nat.shiftLeft_eq]
    have ht : (b0 <<< 16) ||| (b1 <<< 8) = b0 * 65536 + b1 * 256 := by
      rw [e0, e1]
      exact lor_eq_add_of_mod (b0 * 65536) (b1 * 256) 16 (by omega) (by omega)
    rw [encode_cons2,
      trimPad_append_of_ne _ _ (by
        intro c hc
        simp only [List.mem_cons, List.not_mem_nil, or_false] at hc
        rcases hc with rfl | rfl | rfl <;> exact b64CHARS_getD_ne_pad _ (and63_lt _)),
      trimPad_single_pad, List.append_nil]
    rw [decode_step _ _ _ _ _ (b64val_getD _ (and63_lt _)) (and63_lt _),
      if_neg (by norm_num),
      decode_step _ _ _ _ _ (b64val_getD _ (and63_lt _)) (and63_lt _),
      if_pos (by norm_num),
      decode_step _ _ _ _ _ (b64val_getD _ (and63_lt _)) (and63_lt _),
      if_pos (by norm_num)]
    simp only [decodeLoop, ht, Nat.shiftRight_eq_div_pow, and63_eq_mod,
      Except.ok.injEq, List.cons.injEq, and_true]
    refine ⟨by omega, by omega⟩
  | b0 :: b1 :: b2 :: rest, buf, h => by
    have hb0 : b0 < 256 := h b0 (by simp)
    have hb1 : b1 < 256 := h b1 (by simp)
    have hb2 : b2 < 256 := h b2 (by simp)
    have ih : ∀ buf2, decodeLoop (trimPad (base64_encode rest)) buf2 0 = .ok rest :=
      fun buf2 => decode_encode_aux rest buf2 (fun b hb => h b (by simp [hb]))
    have e0 : b0 <<< 16 = b0 * 65536 := by
      rw [Nat.shiftLeft_eq]
    have e1 : b1 <<< 8 = b1 * 256 := by
      rw [Nat.shiftLeft_eq]
    have ht : (b0 <<< 16) ||| (b1 <<< 8) ||| b2 = b0 * 65536 + b1 * 256 + b2 := by
      rw [e0, e1]
      rw [lor_eq_add_of_mod (b0 * 65536) (b1 * 256) 16 (by omega) (by omega)]
      exact lor_eq_add_of_mod (b0 * 65536 + b1 * 256) b2 8 (by omega) (by omega)
    rw [encode_cons3,
      trimPad_append_of_ne _ _ (by
        intro c hc
        simp only [List.mem_cons, List.not_mem_nil, or_false] at hc
        rcases hc with rfl | rfl | rfl | rfl <;>
          exact b64CHARS_getD_ne_pad _ (and63_lt _)),
      List.cons_append, List.cons_append, List.cons_append, List.singleton_append]
    rw [decode_step _ _ _ _ _ (b64val_getD _ (and63_lt _)) (and63_lt _),
      if_neg (by norm_num),
      decode_step _ _ _ _ _ (b64val_getD _ (and63_lt _)) (and63_lt _),
      if_pos (by norm_num),
      decode_step _ _ _ _ _ (b64val_getD _ (and63_lt _)) (and63_lt _),
      if_pos (by norm_num),
      decode_step _ _ _ _ _ (b64val_getD _ (and63_lt _)) (and63_lt _),
      if_pos (by norm_num),
      show (0 + 6 + 6 - 8 + 6 - 8 + 6 - 8 : Nat) = 0 from rfl,
      ih]
    simp only [ht, Nat.shiftRight_eq_div_pow, and63_eq_mod,
      Except.ok.injEq, List.cons.injEq, and_true]
    refine ⟨by omega, by omega, by omega⟩

/-- Claim C4: for every byte sequence, of any length including lengths
that are not a multiple of 3, base64-decoding the base64-encoding of
the sequence yields exactly the original sequence. -/
theorem base64_roundtrip (l : List Nat) (h : ∀ b ∈ l, b < 256) :
    base64_decode (base64_encode l) = .ok l :=
  decode_encode_aux l 0 h

/-- Witness for C4 on the five-byte sequence "hello" (length 5, not a
multiple of 3, exercising the padding path). -/
theorem base64_roundtrip_witness :
    base64_decode (base64_encode [104, 101, 108, 108, 111]) =
      .ok [104, 101, 108, 108, 111] :=
  base64_roundtrip [104, 101, 108, 108, 111] (by decide)

/-! ## Claim C9: rejection of characters outside the alphabet -/

theorem decodeLoop_error_of_invalid :
    ∀ (cs : List Char) (buf bits : Nat) (c : Char), c ∈ cs →
      (∀ v, b64val c ≠ .ok v) → ∃ msg, decodeLoop cs buf bits = .error msg := by
  intro cs
  induction cs with
  | nil =>
    intro buf bits c hc
    exact absurd hc (List.not_mem_nil c)
  | cons c2 rest ih =>
    intro buf bits c hc hbad
    cases hb : b64val c2 with
    | error e => exact ⟨e, by simp only [decodeLoop, hb]⟩
    | ok v =>
      have hcr : c ∈ rest := by
        rcases List.mem_cons.mp hc with rfl | h2
        · exact absurd hb (hbad v)
        · exact h2
      simp only [decodeLoop, hb]
      by_cases hbits : 8 ≤ bits + 6
      · rw [if_pos hbits]
        obtain ⟨m, hm⟩ :=
          ih (buf <<< 6 % 2 ^ 32 ||| v) (bits + 6 - 8) c hcr hbad
        rw [hm]
        exact ⟨m, rfl⟩
      · rw [if_neg hbits]
        exact ih (buf <<< 6 % 2 ^ 32 ||| v) (bits + 6) c hcr hbad

theorem mem_dropWhile_of_ne (l : List Char) (c : Char) (hne : ¬ c = '=')
    (hc : c ∈ l) : c ∈ l.dropWhile fun x => x = '=' := by
  induction l with
  | nil => exact absurd hc (List.not_mem_nil c)
  | cons a as ih =>
    rw [List.dropWhile_cons]
    by_cases ha : a = '='
    · rw [if_pos (by simpa using ha)]
      rcases List.mem_cons.mp hc with rfl | h2
      · exact absurd ha hne
      · exact ih h2
    · rw [if_neg (by simpa using ha)]
      exact hc

theorem mem_trimPad (s : List Char) (c : Char) (hc : c ∈ s) (hne : ¬ c = '=') :
    c ∈ trimPad s := by
  unfold trimPad
  rw [List.mem_reverse]
  exact mem_dropWhile_of_ne s.reverse c hne (List.mem_reverse.mpr hc)

/-- Claim C9: base64 decoding accepts the empty string as a zero-length
payload, and an input containing any character outside the 64-symbol
alphabet (A-Z, a-z, 0-9, +, /) plus the padding character signals a
decode error rather than silently truncating or skipping. -/
theorem base64_decode_empty_and_reject :
    base64_decode [] = .ok [] ∧
    (∀ (s : List Char) (c : Char), c ∈ s →
      ¬('A' ≤ c ∧ c ≤ 'Z') → ¬('a' ≤ c ∧ c ≤ 'z') → ¬('0' ≤ c ∧ c ≤ '9') →
      c ≠ '+' → c ≠ '/' → c ≠ '=' →
      ∃ msg, base64_decode s = .error msg) := by
  refine ⟨rfl, fun s c hc h1 h2 h3 h4 h5 h6 => ?_⟩
  have hbad : ∀ v, b64val c ≠ .ok v := by
    intro v
    unfold b64val
    rw [if_neg h1, if_neg h2, if_neg h3, if_neg h4, if_neg h5]
    intro hfalse
    exact Except.noConfusion hfalse
  exact decodeLoop_error_of_invalid (trimPad s) 0 0 c (mem_trimPad s c hc h6) hbad

/-- Witness for C9 at the concrete input "a!": the character after the
valid one is outside the alphabet and decoding reports an error. -/
theorem base64_decode_reject_witness :
    base64_decode ([] : List Char) = .ok [] ∧
    ∃ msg, base64_decode ['a', '!'] = .error msg :=
  ⟨base64_decode_empty_and_reject.1,
    base64_decode_empty_and_reject.2 ['a', '!'] '!' (by decide) (by decide)
      (by decide) (by decide) (by decide) (by decide) (by decide)⟩

/-! ## serde_json encoding of the outcome (lib.rs reply buffers)

`serde_json::to_vec` on the derived wire structs emits the fields in
declaration order, omits an `Option` field that is `None` and a `meta`
vector that is empty (the `skip_serializing_if` attributes of
types.rs), and emits `data` through `base64_serde` as a base64 string.
Characters stand in for the UTF-8 bytes of the buffer. -/

/-- Lower-case hexadecimal digit. -/
def hexDigit (n : Nat) : Char :=
  if n < 10 then Char.ofNat (48 + n) else Char.ofNat (87 + n)

/-- serde_json escaping of one character of a string literal. -/
def jsonEscapeChar (c : Char) : List Char :=
  if c = '"' then ['\\', '"']
  else if c = '\\' then ['\\', '\\']
  else if c = Char.ofNat 8 then ['\\', 'b']
  else if c = Char.ofNat 9 then ['\\', 't']
  else if c = Char.ofNat 10 then ['\\', 'n']
  else if c = Char.ofNat 12 then ['\\', 'f']
  else if c = Char.ofNat 13 then ['\\', 'r']
  else if c.toNat < 32 then
    ['\\', 'u', '0', '0', hexDigit (c.toNat / 16), hexDigit (c.toNat % 16)]
  else [c]

/-- JSON string literal over a character sequence. -/
def jsonStringOfChars (s : List Char) : List Char :=
  '"' :: s.foldr (fun c acc => jsonEscapeChar c ++ acc) ['"']

/-- JSON string literal of a string. -/
def jsonString (s : String) : List Char :=
  jsonStringOfChars s.toList

/-- JSON array of already-encoded elements. -/
def jsonArrayOf (xs : List (List Char)) : List Char :=
  '[' :: (List.intercalate [','] xs ++ [']'])

/-- JSON encoding of a wire `meta` vector of `[key, value]` pairs. -/
def jsonMeta (ps : List (String × String)) : List Char :=
  jsonArrayOf (ps.map fun p => jsonArrayOf [jsonString p.1, jsonString p.2])

/-- serde_json encoding of a `WasmResponse`. -/
def encodeWasmResponse (r : WasmResponse) : List Char :=
  '\x7b' ::
    (jsonString "data" ++ [':'] ++ jsonStringOfChars (base64_encode r.data) ++
      (if r.meta.isEmpty then [] else
        [','] ++ jsonString "meta" ++ [':'] ++ jsonMeta r.meta) ++
      ['\x7d'])

/-- serde_json encoding of a `WasmError`. -/
def encodeWasmError (e : WasmError) : List Char :=
  '\x7b' ::
    (jsonString "code" ++ [':'] ++ jsonString e.code ++ [','] ++
      jsonString "message" ++ [':'] ++ jsonString e.message ++
      (if e.meta.isEmpty then [] else
        [','] ++ jsonString "meta" ++ [':'] ++ jsonMeta e.meta) ++
      ['\x7d'])

/-- serde_json encoding of a `WasmResult`: field `action`, then the
optional `response` and `error` fields, omitted entirely when absent. -/
def encodeWasmResult (r : WasmResult) : List Char :=
  '\x7b' ::
    (jsonString "action" ++ [':'] ++ jsonString r.action ++
      (match r.response with
       | none => []
       | some rs => [','] ++ jsonString "response" ++ [':'] ++ encodeWasmResponse rs) ++
      (match r.error with
       | none => []
       | some e => [','] ++ jsonString "error" ++ [':'] ++ encodeWasmError e) ++
      ['\x7d'])

theorem encodeWasmResult_ne_nil (r : WasmResult) : encodeWasmResult r ≠ [] := by
  unfold encodeWasmResult
  exact List.cons_ne_nil _ _

/-! ## Dispatch entry points (lib.rs, the register macro)

`serde_json::from_slice` is an external JSON parser, so it enters the
model as an explicit function parameter; an entry point is modelled as
the byte content of the reply buffer it hands back (the `malloc`,
`copy_nonoverlapping` and `pack_ptr_len` plumbing of
`__wafer_write_result` transports those bytes unchanged). -/

/-- The `handle` entry point generated by the register macro: decode
the inbound bytes as a `WasmMessage`; on failure reply with the
`decode_error` outcome, otherwise run the block on the decoded message
and encode its outcome. -/
def handleEntry (serde_from_slice : List Nat → Except String WasmMessage)
    (block : Message → Result_) (bytes : List Nat) : List Char :=
  match serde_from_slice bytes with
  | .error e =>
    encodeWasmResult
      { action := "error", response := none,
        error := some { code := "decode_error", message := e, meta := [] } }
  | .ok wm =>
    encodeWasmResult (Result_.to_wasm (block (Message.from_wasm wm)))

/-- The `lifecycle` entry point generated by the register macro. -/
def lifecycleEntry (serde_from_slice : List Nat → Except String WasmLifecycleEvent)
    (lifecycle_impl : LifecycleEvent → Except WaferError Unit)
    (bytes : List Nat) : List Char :=
  match serde_from_slice bytes with
  | .error e =>
    encodeWasmResult
      { action := "error", response := none,
        error := some { code := "decode_error", message := e, meta := [] } }
  | .ok we =>
    match LifecycleEvent.from_wasm we with
    | none =>
      encodeWasmResult { action := "continue", response := none, error := none }
    | some ev =>
      match lifecycle_impl ev with
      | .ok _ =>
        encodeWasmResult { action := "continue", response := none, error := none }
      | .error err =>
        encodeWasmResult
          { action := "error", response := none,
            error := some { code := err.code, message := err.message,
                            meta := err.meta } }

/-- Claim C2: whenever the inbound bytes fail to parse as a wire
message, the `handle` entry point replies with exactly the encoding of
the outcome whose action is `error` and whose error carries code
`decode_error` with the decode diagnostic as message text; the reply
buffer is never empty. -/
theorem handle_decode_failure
    (serde_from_slice : List Nat → Except String WasmMessage)
    (block : Message → Result_) (bytes : List Nat) (e : String)
    (h : serde_from_slice bytes = .error e) :
    handleEntry serde_from_slice block bytes =
      encodeWasmResult
        { action := "error", response := none,
          error := some { code := "decode_error", message := e, meta := [] } } ∧
    handleEntry serde_from_slice block bytes ≠ [] := by
  have heq : handleEntry serde_from_slice block bytes =
      encodeWasmResult
        { action := "error", response := none,
          error := some { code := "decode_error", message := e, meta := [] } } := by
    unfold handleEntry
    rw [h]
  exact ⟨heq, heq ▸ encodeWasmResult_ne_nil _⟩

/-- Witness for C2 with a parser that rejects the input `[0]`. -/
theorem handle_decode_failure_witness :
    handleEntry (fun _ => .error "malformed")
        (fun m => { action := .Continue, response := none, error := none,
                    message := some m })
        [0] =
      encodeWasmResult
        { action := "error", response := none,
          error := some { code := "decode_error", message := "malformed",
                          meta := [] } } :=
  (handle_decode_failure (fun _ => .error "malformed")
    (fun m => { action := .Continue, response := none, error := none,
                message := some m })
    [0] "malformed" rfl).1

/-- Claim C8: a well-formed wire lifecycle event whose type token is
none of `init`, `start`, `stop` makes the `lifecycle` entry point reply
with the unconditional success acknowledgement: the encoding of the
`continue` outcome, which carries no error. -/
theorem lifecycle_unknown_event_ack
    (serde_from_slice : List Nat → Except String WasmLifecycleEvent)
    (lifecycle_impl : LifecycleEvent → Except WaferError Unit)
    (bytes : List Nat) (t : String) (d : List Nat)
    (hdec : serde_from_slice bytes = .ok { event_type := t, data := d })
    (h1 : t ≠ "init") (h2 : t ≠ "start") (h3 : t ≠ "stop") :
    lifecycleEntry serde_from_slice lifecycle_impl bytes =
      encodeWasmResult { action := "continue", response := none, error := none } ∧
    (WasmResult.mk "continue" none none).error = none := by
  have hparse : LifecycleType.parse t = none := by
    unfold LifecycleType.parse
    rw [if_neg h1, if_neg h2, if_neg h3]
  refine ⟨?_, rfl⟩
  unfold lifecycleEntry
  rw [hdec]
  simp only [LifecycleEvent.from_wasm, hparse, Option.map_none']

/-- Witness for C8 at the concrete unknown event type "reload". -/
theorem lifecycle_unknown_event_ack_witness :
    lifecycleEntry (fun _ => .ok { event_type := "reload", data := [] })
        (fun _ => .ok ()) [] =
      encodeWasmResult { action := "continue", response := none, error := none } :=
  (lifecycle_unknown_event_ack (fun _ => .ok { event_type := "reload", data := [] })
    (fun _ => .ok ()) [] "reload" [] rfl (by decide) (by decide) (by decide)).1

end WaferGuest
